import Mathlib

/-!
Verification of the Python source extraction core (`src/core/parser/python-parser.ts`).

The external grammar engine (tree-sitter) hands the core a raw concrete
syntax tree; the core normalizes it (`convertNode`), collects syntax
diagnostics (`collectErrors`) and extracts functions, classes, imports and
their substructure.  This file embeds those routines shallowly:

* `RawNode` is the raw concrete-syntax-tree node of the grammar engine
  (kind, start/end position, covered text, ordered children).  Its
  `hasError` query is modelled from the spec (§4.1): a boolean
  "subtree contains a syntax error" flag, true exactly when the subtree
  contains a node of the grammar's dedicated `"ERROR"` kind.
* `PNode` is the normalized `ParsedNode` without the mutable `parent`
  back-reference; the back-reference is treated in two ways.  For the
  downward extraction routines every located node is paired with its
  chain of ancestors (nearest first), which is exactly the information
  the `parent` pointers carry.  For the claims about the parent pointers
  themselves (`convertNodeIdx`) the imperative two-phase construction is
  embedded as an arena of records addressed by index, `children` being
  index lists and `parent` an optional index patched in after the parent
  record is created — the arena mirror of the JavaScript object graph.
* JavaScript `x?.f || d` fallbacks (which also turn the empty string into
  the default) are embedded by `jsOr` / `jsOrNone`.
-/

structure Position where
  row : Nat
  column : Nat
deriving DecidableEq, Repr

/-- A raw concrete-syntax-tree node as produced by the external grammar
engine: grammar kind, zero-based start/end positions, the exact covered
source text, and the ordered child list. -/
inductive RawNode : Type where
  | mk : String → Position → Position → String → List RawNode → RawNode

namespace RawNode

def type : RawNode → String
  | .mk t _ _ _ _ => t

def startPosition : RawNode → Position
  | .mk _ s _ _ _ => s

def endPosition : RawNode → Position
  | .mk _ _ e _ _ => e

def text : RawNode → String
  | .mk _ _ _ x _ => x

def children : RawNode → List RawNode
  | .mk _ _ _ _ cs => cs

mutual

/-- Pre-order listing of a raw subtree: the node itself, then the
pre-orders of its children left to right. -/
def preorder : RawNode → List RawNode
  | .mk t s e x cs => .mk t s e x cs :: preorderList cs

def preorderList : List RawNode → List RawNode
  | [] => []
  | c :: cs => preorder c ++ preorderList cs

end

mutual

/-- Modelled from the spec: §4.1's "subtree contains a syntax error"
query of the external grammar engine (tree-sitter's `node.hasError()`),
true exactly when the subtree contains a node of the dedicated `"ERROR"`
kind. -/
def hasError : RawNode → Bool
  | .mk t _ _ _ cs => t == "ERROR" || hasErrorList cs

def hasErrorList : List RawNode → Bool
  | [] => false
  | c :: cs => hasError c || hasErrorList cs

end

end RawNode

/-- The normalized `ParsedNode` (kind, span, text, owned children); the
non-owning `parent` back-reference of the TypeScript record is modelled
separately (ancestor chains for the extraction routines, the
`convertNodeIdx` arena for the construction itself). -/
inductive PNode : Type where
  | mk : String → Position → Position → String → List PNode → PNode

namespace PNode

def type : PNode → String
  | .mk t _ _ _ _ => t

def startPosition : PNode → Position
  | .mk _ s _ _ _ => s

def endPosition : PNode → Position
  | .mk _ _ e _ _ => e

def text : PNode → String
  | .mk _ _ _ x _ => x

def children : PNode → List PNode
  | .mk _ _ _ _ cs => cs

mutual

def preorder : PNode → List PNode
  | .mk t s e x cs => .mk t s e x cs :: preorderList cs

def preorderList : List PNode → List PNode
  | [] => []
  | c :: cs => preorder c ++ preorderList cs

end

end PNode

mutual

/-- `convertNode` (python-parser.ts:39-75): recursively converts each raw
child in source order, then builds the node's own record with the same
kind, positions and text.  (The parent patching the TypeScript does after
construction is embedded by `convertNodeIdx` below.) -/
def convertNode : RawNode → PNode
  | .mk t s e x cs => .mk t s e x (convertChildren cs)

def convertChildren : List RawNode → List PNode
  | [] => []
  | c :: cs => convertNode c :: convertChildren cs

end

inductive Severity : Type where
  | error
  | warning
deriving DecidableEq, Repr

structure ParseError where
  message : String
  position : Position
  severity : Severity
deriving DecidableEq, Repr

inductive SupportedLanguage : Type where
  | python
  | javascript
  | typescript
  | java
  | csharp
  | cpp
  | go
deriving DecidableEq, Repr

structure ParseResult where
  ast : PNode
  language : SupportedLanguage
  errors : List ParseError
  source : String

mutual

/-- `collectErrors` (python-parser.ts:80-101): only descends into a node
whose subtree is flagged as containing an error; at each node of the
dedicated `"ERROR"` kind it emits one diagnostic with the fixed message,
the node's start position, and severity `error`; then it recurses into
all children. -/
def collectErrors : RawNode → List ParseError
  | .mk t s e x cs =>
    if (RawNode.mk t s e x cs).hasError then
      (if t == "ERROR" then
        [{ message := s!"Syntax error at {s.row}:{s.column}",
           position := s, severity := .error }]
      else []) ++ collectErrorsList cs
    else []

def collectErrorsList : List RawNode → List ParseError
  | [] => []
  | c :: cs => collectErrors c ++ collectErrorsList cs

end

/-- `parse` (python-parser.ts:16-34), as a function of the raw tree the
external grammar engine returns for the source text: converts the root,
and collects diagnostics when the root is flagged as containing an
error.  It is a total function: no input raises. -/
def parse (rootNode : RawNode) (sourceCode : String) : ParseResult :=
  { ast := convertNode rootNode
    language := .python
    errors := if rootNode.hasError then collectErrors rootNode else []
    source := sourceCode }

mutual

/-- `findNodesByType` (python-parser.ts:106-118): depth-first pre-order
collection of every node in the tree whose kind equals `nodeType`. -/
def findNodesByType : PNode → String → List PNode
  | .mk t s e x cs, nodeType =>
    (if t == nodeType then [PNode.mk t s e x cs] else [])
      ++ findNodesByTypeList cs nodeType

def findNodesByTypeList : List PNode → String → List PNode
  | [], _ => []
  | c :: cs, nodeType => findNodesByType c nodeType ++ findNodesByTypeList cs nodeType

end

mutual

/-- The same traversal as `findNodesByType`, with each located node paired
with its chain of ancestors (nearest first) — the information the
TypeScript nodes carry in their `parent` back-references.  `anc` is the
ancestor chain of the tree passed in (empty for the root). -/
def findNodesByTypeCtx : PNode → String → List PNode → List (PNode × List PNode)
  | .mk t s e x cs, nodeType, anc =>
    (if t == nodeType then [(PNode.mk t s e x cs, anc)] else [])
      ++ findNodesByTypeCtxList cs nodeType (PNode.mk t s e x cs :: anc)

def findNodesByTypeCtxList : List PNode → String → List PNode → List (PNode × List PNode)
  | [], _, _ => []
  | c :: cs, nodeType, anc =>
    findNodesByTypeCtx c nodeType anc ++ findNodesByTypeCtxList cs nodeType anc

end

structure PythonParameter where
  name : String
  type : Option String
  defaultValue : Option String
deriving DecidableEq, Repr

structure PythonFunction where
  name : String
  parameters : List PythonParameter
  body : String
  startLine : Nat
  endLine : Nat
  isAsync : Bool
  decorators : List String
deriving DecidableEq, Repr

structure PythonClass where
  name : String
  superclasses : List String
  methods : List PythonFunction
  startLine : Nat
  endLine : Nat
  decorators : List String
deriving DecidableEq, Repr

structure ImportName where
  name : String
  «alias» : Option String
deriving DecidableEq, Repr

structure PythonImport where
  type : String
  module : String
  names : List ImportName
  «alias» : Option String
  startLine : Nat
deriving DecidableEq, Repr

/-- JavaScript `x?.f || dflt` on an optional string: absent or empty
falls back to the default. -/
def jsOr (s : Option String) (dflt : String) : String :=
  match s with
  | some t => if t == "" then dflt else t
  | none => dflt

/-- JavaScript `x || null` / `x || undefined` on an optional string:
absent stays absent and the empty string becomes absent. -/
def jsOrNone (s : Option String) : Option String :=
  match s with
  | some t => if t == "" then none else some t
  | none => none

/-- `extractParameters` (python-parser.ts:205-242): keeps the children of
the parameter list whose kind is one of the three recognized shapes, then
classifies each kept child. -/
def extractParameters (parametersNode : Option PNode) : List PythonParameter :=
  match parametersNode with
  | none => []
  | some pn =>
    let paramNodes := pn.children.filter fun child =>
      child.type == "identifier" || child.type == "default_parameter"
        || child.type == "typed_parameter"
    paramNodes.flatMap fun node =>
      if node.type == "identifier" then
        [{ name := node.text, type := none, defaultValue := none }]
      else if node.type == "default_parameter" then
        let nameNode := node.children.find? fun child => child.type == "identifier"
        let valueNode := node.children.getLast?
        [{ name := jsOr (nameNode.map PNode.text) "unknown", type := none,
           defaultValue := jsOrNone (valueNode.map PNode.text) }]
      else if node.type == "typed_parameter" then
        let nameNode := node.children.find? fun child => child.type == "identifier"
        let typeNode := node.children.find? fun child => child.type == "type"
        [{ name := jsOr (nameNode.map PNode.text) "unknown",
           type := jsOrNone (typeNode.map PNode.text), defaultValue := none }]
      else []

/-- `extractDecorators` (python-parser.ts:244-255), on the node's ancestor
chain (nearest first, i.e. starting at `node.parent`): while the current
ancestor is a `"decorated_definition"` wrapper, append the text of its
children of kind `"decorator"` and ascend. -/
def extractDecorators (ancestors : List PNode) : List String :=
  match ancestors with
  | [] => []
  | current :: rest =>
    if current.type == "decorated_definition" then
      ((current.children.filter fun child => child.type == "decorator").map PNode.text)
        ++ extractDecorators rest
    else []

/-- `extractSuperclasses` (python-parser.ts:257-263). -/
def extractSuperclasses (superclassNode : Option PNode) : List String :=
  match superclassNode with
  | none => []
  | some n =>
    (n.children.filter fun child =>
      child.type == "identifier" || child.type == "attribute").map PNode.text

/-- `extractImportNames` (python-parser.ts:285-305): a bare identifier
child becomes `{name}`; an `"aliased_import"` child takes its name from
children[0] and its alias from children[2] (children[1] is the keyword
token). -/
def extractImportNames (importListNode : Option PNode) : List ImportName :=
  match importListNode with
  | none => []
  | some l =>
    l.children.flatMap fun child =>
      if child.type == "identifier" then
        [{ name := child.text, «alias» := none }]
      else if child.type == "aliased_import" then
        let nameNode := child.children[0]?
        let aliasNode := child.children[2]?
        [{ name := jsOr (nameNode.map PNode.text) "",
           «alias» := jsOrNone (aliasNode.map PNode.text) }]
      else []

/-- The record `extractFunctions` (python-parser.ts:123-141) builds for one
located `"function_definition"` node; `anc` is the node's ancestor chain. -/
def functionOfNode (node : PNode) (anc : List PNode) : PythonFunction :=
  let nameNode := node.children.find? fun child => child.type == "identifier"
  let parametersNode := node.children.find? fun child => child.type == "parameters"
  let bodyNode := node.children.find? fun child => child.type == "block"
  { name := jsOr (nameNode.map PNode.text) "unknown"
    parameters := extractParameters parametersNode
    body := jsOr (bodyNode.map PNode.text) ""
    startLine := node.startPosition.row
    endLine := node.endPosition.row
    isAsync := node.children.any fun child => child.text == "async"
    decorators := extractDecorators anc }

/-- `extractFunctions` (python-parser.ts:123-141); `anc` is the ancestor
chain of `ast` (empty when `ast` is the whole-file root). -/
def extractFunctions (ast : PNode) (anc : List PNode) : List PythonFunction :=
  (findNodesByTypeCtx ast "function_definition" anc).map fun p => functionOfNode p.1 p.2

/-- The record `extractMethods` (python-parser.ts:265-283) builds for one
located `"function_definition"` node: unlike `functionOfNode`, its `body`
is the whole function node's text. -/
def methodOfNode (node : PNode) (anc : List PNode) : PythonFunction :=
  let nameNode := node.children.find? fun child => child.type == "identifier"
  let parametersNode := node.children.find? fun child => child.type == "parameters"
  { name := jsOr (nameNode.map PNode.text) "unknown"
    parameters := extractParameters parametersNode
    body := node.text
    startLine := node.startPosition.row
    endLine := node.endPosition.row
    isAsync := node.children.any fun child => child.text == "async"
    decorators := extractDecorators anc }

/-- `extractMethods` (python-parser.ts:265-283); `anc` is the ancestor
chain of the class body node. -/
def extractMethods (bodyNode : Option PNode) (anc : List PNode) : List PythonFunction :=
  match bodyNode with
  | none => []
  | some b => (findNodesByTypeCtx b "function_definition" anc).map fun p => methodOfNode p.1 p.2

/-- The record `extractClasses` (python-parser.ts:146-163) builds for one
located `"class_definition"` node. -/
def classOfNode (node : PNode) (anc : List PNode) : PythonClass :=
  let nameNode := node.children.find? fun child => child.type == "identifier"
  let bodyNode := node.children.find? fun child => child.type == "block"
  let superclassNode := node.children.find? fun child => child.type == "argument_list"
  { name := jsOr (nameNode.map PNode.text) "unknown"
    superclasses := extractSuperclasses superclassNode
    methods := extractMethods bodyNode (node :: anc)
    startLine := node.startPosition.row
    endLine := node.endPosition.row
    decorators := extractDecorators anc }

/-- `extractClasses` (python-parser.ts:146-163). -/
def extractClasses (ast : PNode) (anc : List PNode) : List PythonClass :=
  (findNodesByTypeCtx ast "class_definition" anc).map fun p => classOfNode p.1 p.2

/-- The record `extractImports` (python-parser.ts:168-203) builds for one
located import statement node, branching on whether it is the `from`
form. -/
def importOfNode (node : PNode) : PythonImport :=
  if node.type == "import_from_statement" then
    let moduleNode := node.children.find? fun child =>
      child.type == "dotted_name" || child.type == "relative_import"
    let importListNode := node.children.find? fun child => child.type == "import_list"
    { type := "from"
      module := jsOr (moduleNode.map PNode.text) ""
      names := extractImportNames importListNode
      «alias» := none
      startLine := node.startPosition.row }
  else
    let importListNode := node.children.find? fun child => child.type == "import_list"
    let names := extractImportNames importListNode
    { type := "import"
      module := jsOr ((names[0]?).map ImportName.name) ""
      names := names
      «alias» := jsOrNone ((names[0]?).bind ImportName.«alias»)
      startLine := node.startPosition.row }

/-- `extractImports` (python-parser.ts:168-203): all `"import_statement"`
nodes, then all `"import_from_statement"` nodes, each mapped to its
record. -/
def extractImports (ast : PNode) : List PythonImport :=
  (findNodesByType ast "import_statement" ++ findNodesByType ast "import_from_statement").map
    importOfNode

structure ANode where
  type : String
  startPosition : Position
  endPosition : Position
  text : String
  children : List Nat
  parent : Option Nat
deriving DecidableEq, Repr

/-- The arena record `convertNodeIdx` appends for one raw node: the
node's own fields, its child index list, and `parent := none` (patched
afterwards by the node's own parent). -/
def mkANode (t : String) (s e : Position) (x : String) (ks : List Nat) : ANode :=
  { type := t, startPosition := s, endPosition := e, text := x,
    children := ks, parent := none }

/-- Overwrite the `parent` field of the arena entry at index `j` (a no-op
on an out-of-range index). -/
def setParentAt (a : List ANode) (j : Nat) (p : Nat) : List ANode :=
  match a[j]? with
  | some n => a.set j { n with parent := some p }
  | none => a

/-- The parent-patching loop of `convertNode` (python-parser.ts:70-72):
every freshly built child gets its `parent` back-reference pointed at the
newly constructed node. -/
def setParents (a : List ANode) (idxs : List Nat) (p : Nat) : List ANode :=
  idxs.foldl (fun acc j => setParentAt acc j p) a

mutual

/-- `convertNode` (python-parser.ts:39-75) again, now with the mutable
object graph made explicit as an arena: nodes are arena entries addressed
by index, `children` is an index list, `parent` an optional index.  The
children are built first (each created with `parent := none`,
python-parser.ts:56), then the node's own record is appended, then each
child root's `parent` is patched to the new index — the two-phase
construction of the TypeScript code.  Returns the grown arena and the
index of the node just built. -/
def convertNodeIdx : RawNode → List ANode → List ANode × Nat
  | .mk t s e x cs, a =>
    let pr := convertChildrenIdx cs a
    let idx := pr.1.length
    let a2 := pr.1 ++ [{ type := t, startPosition := s, endPosition := e,
                         text := x, children := pr.2, parent := none }]
    (setParents a2 pr.2 idx, idx)

def convertChildrenIdx : List RawNode → List ANode → List ANode × List Nat
  | [], a => (a, [])
  | c :: cs, a =>
    let pr := convertNodeIdx c a
    let pr2 := convertChildrenIdx cs pr.1
    (pr2.1, pr.2 :: pr2.2)

end

/-- Dereference a node's `parent` back-reference in the arena. -/
def parentOf (a : List ANode) (j : Nat) : Option Nat :=
  (a[j]?).bind ANode.parent

/-- The `while` loop of `extractDecorators` (python-parser.ts:246-252) on
the arena, with explicit fuel: `none` means the fuel ran out before the
loop finished, `some ds` that the loop terminated with result `ds`.
`cur` is the loop variable (the current ancestor index, if any). -/
def extractDecoratorsLoop (a : List ANode) : Option Nat → Nat → Option (List String)
  | _, 0 => none
  | none, _ + 1 => some []
  | some k, fuel + 1 =>
    match a[k]? with
    | none => some []
    | some n =>
      if n.type == "decorated_definition" then
        match extractDecoratorsLoop a n.parent fuel with
        | none => none
        | some rest =>
          some (((n.children.filterMap fun c =>
            (a[c]?).bind fun cn =>
              if cn.type == "decorator" then some cn.text else none)) ++ rest)
      else some []

/-- `extractDecorators` (python-parser.ts:244-255) on the arena: start the
ascent at the node's `parent` back-reference. -/
def extractDecoratorsIdx (a : List ANode) (j : Nat) (fuel : Nat) : Option (List String) :=
  extractDecoratorsLoop a (parentOf a j) fuel

mutual

/-- Number of nodes of a raw subtree. -/
def RawNode.numNodes : RawNode → Nat
  | .mk _ _ _ _ cs => 1 + RawNode.numNodesList cs

def RawNode.numNodesList : List RawNode → Nat
  | [] => 0
  | c :: cs => RawNode.numNodes c + RawNode.numNodesList cs

end

/-- The per-entry invariant of a freshly built arena region `[lo, a.length)`
whose subtree roots are `roots`: every entry is present, its children lie
below it inside the region, a root's `parent` is still `none`, and every
non-root's `parent` points to a strictly larger index inside the region
whose `children` list contains it. -/
def RegionOK (a : List ANode) (lo : Nat) (roots : List Nat) : Prop :=
  ∀ j, lo ≤ j → j < a.length → ∃ n, a[j]? = some n
    ∧ (∀ c ∈ n.children, lo ≤ c ∧ c < j)
    ∧ (j ∈ roots → n.parent = none)
    ∧ (j ∉ roots → ∃ p pn, n.parent = some p ∧ j < p ∧ p < a.length
        ∧ a[p]? = some pn ∧ j ∈ pn.children)

/-- Fixture: a `"function_definition"` node whose whole text is
`"def m(self): pass"` while its `"block"` child's text is `"pass"`. -/
def exFunDef : PNode :=
  .mk "function_definition" ⟨1, 0⟩ ⟨1, 17⟩ "def m(self): pass"
    [.mk "def" ⟨1, 0⟩ ⟨1, 3⟩ "def" [],
     .mk "identifier" ⟨1, 4⟩ ⟨1, 5⟩ "m" [],
     .mk "parameters" ⟨1, 5⟩ ⟨1, 11⟩ "(self)"
       [.mk "(" ⟨1, 5⟩ ⟨1, 6⟩ "(" [],
        .mk "identifier" ⟨1, 6⟩ ⟨1, 10⟩ "self" [],
        .mk ")" ⟨1, 10⟩ ⟨1, 11⟩ ")" []],
     .mk ":" ⟨1, 11⟩ ⟨1, 12⟩ ":" [],
     .mk "block" ⟨1, 13⟩ ⟨1, 17⟩ "pass" []]

/-- Fixture: the class body block holding `exFunDef`. -/
def exClassBody : PNode :=
  .mk "block" ⟨1, 0⟩ ⟨1, 17⟩ "def m(self): pass" [exFunDef]

/-- Fixture: a `"class_definition"` node with body `exClassBody`. -/
def exClassNode : PNode :=
  .mk "class_definition" ⟨0, 0⟩ ⟨1, 17⟩ "class C:\n    def m(self): pass"
    [.mk "class" ⟨0, 0⟩ ⟨0, 5⟩ "class" [],
     .mk "identifier" ⟨0, 6⟩ ⟨0, 7⟩ "C" [],
     .mk ":" ⟨0, 7⟩ ⟨0, 8⟩ ":" [],
     exClassBody]

/-- Fixture: a whole-file tree holding `exClassNode`. -/
def exClassTree : PNode :=
  .mk "module" ⟨0, 0⟩ ⟨1, 17⟩ "class C:\n    def m(self): pass" [exClassNode]

/-- Fixture: a direct import statement on row 0. -/
def exImportRow0 : PNode :=
  .mk "import_statement" ⟨0, 0⟩ ⟨0, 8⟩ "import a" []

/-- Fixture: a from-import statement on row 1, between the direct
ones. -/
def exFromRow1 : PNode :=
  .mk "import_from_statement" ⟨1, 0⟩ ⟨1, 13⟩ "from b import c" []

/-- Fixture: a direct import statement on row 2. -/
def exImportRow2 : PNode :=
  .mk "import_statement" ⟨2, 0⟩ ⟨2, 8⟩ "import d" []

/-- Fixture: a whole-file tree interleaving the two import statement
forms (direct, from, direct). -/
def exInterleaved : PNode :=
  .mk "module" ⟨0, 0⟩ ⟨2, 8⟩ "import a\nfrom b import c\nimport d"
    [exImportRow0, exFromRow1, exImportRow2]

/-- Fixture: a raw tree whose root is flagged as containing a syntax
error (one `"ERROR"` node under the module root). -/
def exErrRoot : RawNode :=
  .mk "module" ⟨0, 0⟩ ⟨0, 3⟩ "def"
    [.mk "ERROR" ⟨0, 0⟩ ⟨0, 3⟩ "def" []]

/-- Fixture: a decorated definition wrapper for the arena claims. -/
def exDecorated : RawNode :=
  .mk "decorated_definition" ⟨0, 0⟩ ⟨1, 10⟩ "@a\ndef f(): 0"
    [.mk "decorator" ⟨0, 0⟩ ⟨0, 2⟩ "@a" [],
     .mk "function_definition" ⟨1, 0⟩ ⟨1, 10⟩ "def f(): 0" []]

/-- The agreement that does hold between a method record and the
corresponding function record: every field except `body`. -/
def agreesExceptBody (m f : PythonFunction) : Prop :=
  m.name = f.name ∧ m.parameters = f.parameters ∧ m.startLine = f.startLine
    ∧ m.endLine = f.endLine ∧ m.isAsync = f.isAsync ∧ m.decorators = f.decorators

theorem convertNode_type (r : RawNode) : (convertNode r).type = r.type := by
  cases r; rfl

theorem convertNode_startPosition (r : RawNode) :
    (convertNode r).startPosition = r.startPosition := by
  cases r; rfl

theorem convertNode_endPosition (r : RawNode) :
    (convertNode r).endPosition = r.endPosition := by
  cases r; rfl

theorem convertNode_text (r : RawNode) : (convertNode r).text = r.text := by
  cases r; rfl

mutual

theorem convertNode_preorder (r : RawNode) :
    (convertNode r).preorder = r.preorder.map convertNode := by
  cases r with
  | mk t s e x cs =>
    simp only [convertNode, PNode.preorder, RawNode.preorder, List.map_cons]
    exact congrArg _ (convertChildren_preorderList cs)

theorem convertChildren_preorderList (l : List RawNode) :
    PNode.preorderList (convertChildren l) = (RawNode.preorderList l).map convertNode := by
  cases l with
  | nil => rfl
  | cons c cs =>
    simp only [convertChildren, PNode.preorderList, RawNode.preorderList, List.map_append]
    rw [convertNode_preorder c, convertChildren_preorderList cs]

end

/-- C1: the normalized tree `convertNode` produces has exactly one node
per node of the raw concrete tree, a pre-order traversal of the
normalized tree visits the images of the raw nodes in the same relative
order, and each normalized node mirrors the kind, span and text of the
corresponding raw node. -/
theorem convertNode_one_node_per_raw_node (r : RawNode) :
    (convertNode r).preorder.length = r.preorder.length
  ∧ (convertNode r).preorder = r.preorder.map convertNode
  ∧ List.Forall₂ (fun p q => p.type = q.type ∧ p.startPosition = q.startPosition
      ∧ p.endPosition = q.endPosition ∧ p.text = q.text)
      (convertNode r).preorder r.preorder := by
  refine ⟨by rw [convertNode_preorder]; simp, convertNode_preorder r, ?_⟩
  rw [convertNode_preorder, List.forall₂_map_left_iff]
  exact List.forall₂_same.mpr fun q _ =>
    ⟨convertNode_type q, convertNode_startPosition q, convertNode_endPosition q,
      convertNode_text q⟩

mutual

theorem hasError_iff (n : RawNode) :
    n.hasError = true ↔ ∃ m ∈ n.preorder, m.type = "ERROR" := by
  cases n with
  | mk t s e x cs =>
    simp only [RawNode.hasError, RawNode.preorder, Bool.or_eq_true, beq_iff_eq,
      List.mem_cons, hasErrorList_iff cs]
    constructor
    · rintro (h | ⟨m, hm, hmt⟩)
      · exact ⟨.mk t s e x cs, Or.inl rfl, h⟩
      · exact ⟨m, Or.inr hm, hmt⟩
    · rintro ⟨m, hm | hm, hmt⟩
      · subst hm; exact Or.inl hmt
      · exact Or.inr ⟨m, hm, hmt⟩

theorem hasErrorList_iff (l : List RawNode) :
    RawNode.hasErrorList l = true ↔ ∃ m ∈ RawNode.preorderList l, m.type = "ERROR" := by
  cases l with
  | nil => simp [RawNode.hasErrorList, RawNode.preorderList]
  | cons c cs =>
    simp only [RawNode.hasErrorList, RawNode.preorderList, Bool.or_eq_true,
      List.mem_append, hasError_iff c, hasErrorList_iff cs]
    constructor
    · rintro (⟨m, hm, hmt⟩ | ⟨m, hm, hmt⟩)
      · exact ⟨m, Or.inl hm, hmt⟩
      · exact ⟨m, Or.inr hm, hmt⟩
    · rintro ⟨m, hm | hm, hmt⟩
      · exact Or.inl ⟨m, hm, hmt⟩
      · exact Or.inr ⟨m, hm, hmt⟩

end

/-- The diagnostic `collectErrors` pushes for one `"ERROR"` node. -/
def syntaxErrorFor (m : RawNode) : ParseError :=
  { message := s!"Syntax error at {m.startPosition.row}:{m.startPosition.column}",
    position := m.startPosition, severity := .error }

mutual

theorem collectErrors_spec (n : RawNode) :
    collectErrors n = (n.preorder.filter fun m => m.type == "ERROR").map syntaxErrorFor := by
  cases n with
  | mk t s e x cs =>
    by_cases h : (RawNode.mk t s e x cs).hasError
    · simp only [collectErrors, h, if_true, RawNode.preorder, List.filter_cons,
        RawNode.type, collectErrorsList_spec cs]
      by_cases ht : t = "ERROR"
      · simp [ht, syntaxErrorFor, RawNode.startPosition]
      · simp [ht]
    · have hb : (RawNode.mk t s e x cs).hasError = false := by
        simpa using h
      have : ∀ m ∈ (RawNode.mk t s e x cs).preorder, ¬(m.type == "ERROR") = true := by
        intro m hm hmt
        exact absurd ((hasError_iff _).mpr ⟨m, hm, by simpa using hmt⟩) (by simp [hb])
      simp only [collectErrors, hb, Bool.false_eq_true, if_false]
      rw [List.filter_eq_nil_iff.mpr this]
      rfl

theorem collectErrorsList_spec (l : List RawNode) :
    collectErrorsList l
      = ((RawNode.preorderList l).filter fun m => m.type == "ERROR").map syntaxErrorFor := by
  cases l with
  | nil => rfl
  | cons c cs =>
    simp only [collectErrorsList, RawNode.preorderList, List.filter_append, List.map_append]
    rw [collectErrors_spec c, collectErrorsList_spec cs]

end

/-- C4: the error collector emits exactly one `ParseError` per node of the
dedicated `"ERROR"` kind — in pre-order, with message
`"Syntax error at <row>:<column>"`, position the node's start position and
severity `error` — and a subtree not flagged as containing an error is not
visited (it contributes nothing). -/
theorem collectErrors_one_per_error_node (n : RawNode) :
    collectErrors n = (n.preorder.filter fun m => m.type == "ERROR").map
      (fun m => { message := s!"Syntax error at {m.startPosition.row}:{m.startPosition.column}",
                  position := m.startPosition, severity := .error })
  ∧ (n.hasError = false → collectErrors n = []) := by
  constructor
  · exact collectErrors_spec n
  · intro h
    cases n with
    | mk t s e x cs => simp [collectErrors, h]

/-- C3: whenever the raw tree is flagged as containing a syntax error,
`parse` (a total function — it never raises) still returns the converted
root tree together with at least one `ParseError` of severity `error`. -/
theorem parse_flagged_input_reports_error (rootNode : RawNode) (sourceCode : String)
    (h : rootNode.hasError = true) :
    (parse rootNode sourceCode).ast = convertNode rootNode
  ∧ ∃ e ∈ (parse rootNode sourceCode).errors, e.severity = Severity.error := by
  refine ⟨rfl, ?_⟩
  have herrs : (parse rootNode sourceCode).errors = collectErrors rootNode := by
    simp [parse, h]
  rw [herrs, collectErrors_spec]
  obtain ⟨m, hm, hmt⟩ := (hasError_iff rootNode).mp h
  exact ⟨syntaxErrorFor m,
    List.mem_map_of_mem _ (List.mem_filter.mpr ⟨hm, by simp [hmt]⟩), rfl⟩

/-- Witness for C3 at the concrete flagged tree `exErrRoot`. -/
theorem parse_flagged_input_reports_error_witness :
    (parse exErrRoot "def").ast = convertNode exErrRoot
  ∧ ∃ e ∈ (parse exErrRoot "def").errors, e.severity = Severity.error :=
  parse_flagged_input_reports_error exErrRoot "def" (by decide)

theorem filter_flatMap {α β : Type} (p : α → Bool) (f : α → List β) (l : List α) :
    (l.filter p).flatMap f = l.flatMap fun x => if p x then f x else [] := by
  induction l with
  | nil => rfl
  | cons a l ih => by_cases h : p a <;> simp [List.filter_cons, h, ih]

/-- C7: `extractParameters` classifies each immediate child of the
parameter list into exactly one of the three recognized shapes — plain
identifier, default parameter (default value from the node's last child),
typed parameter (type from the child of kind `"type"`) — and every other
child shape, including a parameter carrying both a type annotation and a
default value (`"typed_default_parameter"`), contributes no entry. -/
theorem extractParameters_three_shapes (pn : PNode) :
    extractParameters (some pn) = pn.children.flatMap fun child =>
      if child.type == "identifier" then
        [{ name := child.text, type := none, defaultValue := none }]
      else if child.type == "default_parameter" then
        [{ name := jsOr ((child.children.find? fun c => c.type == "identifier").map
              PNode.text) "unknown",
           type := none,
           defaultValue := jsOrNone ((child.children.getLast?).map PNode.text) }]
      else if child.type == "typed_parameter" then
        [{ name := jsOr ((child.children.find? fun c => c.type == "identifier").map
              PNode.text) "unknown",
           type := jsOrNone ((child.children.find? fun c => c.type == "type").map PNode.text),
           defaultValue := none }]
      else [] := by
  simp only [extractParameters]
  rw [filter_flatMap]
  congr 1
  funext child
  by_cases h1 : child.type == "identifier"
  · simp [h1]
  · by_cases h2 : child.type == "default_parameter"
    · simp [h1, h2]
    · by_cases h3 : child.type == "typed_parameter"
      · simp [h1, h2, h3]
      · simp [h1, h2, h3]

/-- C8: `extractDecorators` walks the ancestor chain while the current
ancestor is a `"decorated_definition"` wrapper, collecting the text of
each wrapper's `"decorator"` children, innermost wrapper first; when the
parent is not such a wrapper the result is empty. -/
theorem extractDecorators_innermost_outward (ancestors : List PNode) :
    extractDecorators ancestors
      = (ancestors.takeWhile fun c => c.type == "decorated_definition").flatMap
          (fun c => (c.children.filter fun child => child.type == "decorator").map PNode.text)
  ∧ (∀ current rest, ancestors = current :: rest →
      current.type ≠ "decorated_definition" → extractDecorators ancestors = []) := by
  constructor
  · induction ancestors with
    | nil => rfl
    | cons current rest ih =>
      by_cases h : current.type == "decorated_definition"
      · simp [extractDecorators, h, List.takeWhile_cons, ih]
      · simp [extractDecorators, h, List.takeWhile_cons]
  · rintro current rest rfl hne
    have h : (current.type == "decorated_definition") = false := by
      simpa using hne
    simp [extractDecorators, h]

mutual

theorem findNodesByType_mem_type (ast : PNode) (nodeType : String) :
    ∀ m ∈ findNodesByType ast nodeType, m.type = nodeType := by
  cases ast with
  | mk t s e x cs =>
    intro m hm
    simp only [findNodesByType, List.mem_append] at hm
    rcases hm with hm | hm
    · by_cases h : t == nodeType
      · simp only [h, if_true, List.mem_singleton] at hm
        subst hm
        exact beq_iff_eq.mp h
      · simp [h] at hm
    · exact findNodesByTypeList_mem_type cs nodeType m hm

theorem findNodesByTypeList_mem_type (l : List PNode) (nodeType : String) :
    ∀ m ∈ findNodesByTypeList l nodeType, m.type = nodeType := by
  cases l with
  | nil => simp [findNodesByTypeList]
  | cons c cs =>
    intro m hm
    simp only [findNodesByTypeList, List.mem_append] at hm
    rcases hm with hm | hm
    · exact findNodesByType_mem_type c nodeType m hm
    · exact findNodesByTypeList_mem_type cs nodeType m hm

end

/-- C9: `extractImports` lists all direct-import entities (from the
`"import_statement"` nodes, in pre-order among themselves) before all
from-import entities (from the `"import_from_statement"` nodes, in
pre-order among themselves); on the concrete interleaved file
`exInterleaved` (direct import on row 0, from-import on row 1, direct
one again on row 2) the output rows are [0, 2, 1] — not overall source
order. -/
theorem extractImports_direct_before_from :
    (∀ ast : PNode,
        extractImports ast
          = (findNodesByType ast "import_statement").map importOfNode
            ++ (findNodesByType ast "import_from_statement").map importOfNode
      ∧ (∀ imp ∈ (findNodesByType ast "import_statement").map importOfNode,
          imp.type = "import")
      ∧ (∀ imp ∈ (findNodesByType ast "import_from_statement").map importOfNode,
          imp.type = "from"))
  ∧ (extractImports exInterleaved).map PythonImport.startLine = [0, 2, 1] := by
  constructor
  · intro ast
    refine ⟨by simp [extractImports], ?_, ?_⟩
    · intro imp himp
      obtain ⟨i, hi, rfl⟩ := List.mem_map.mp himp
      have ht := findNodesByType_mem_type ast "import_statement" i hi
      simp [importOfNode, ht]
    · intro imp himp
      obtain ⟨i, hi, rfl⟩ := List.mem_map.mp himp
      have ht := findNodesByType_mem_type ast "import_from_statement" i hi
      simp [importOfNode, ht]
  · decide

theorem jsOr_empty_default (o : Option String) : jsOr o "" = o.getD "" := by
  cases o with
  | none => rfl
  | some t =>
    by_cases h : t == ""
    · simp [jsOr, h, beq_iff_eq.mp h]
    · simp [jsOr, h]

theorem jsOrNone_ne_some_empty (o : Option String) : jsOrNone o ≠ some "" := by
  cases o with
  | none => simp [jsOrNone]
  | some t =>
    by_cases h : t == ""
    · simp [jsOrNone, h]
    · simp only [jsOrNone, h, Bool.false_eq_true, if_false, ne_eq, Option.some.injEq]
      simpa using h

theorem jsOrNone_of_ne_some_empty (o : Option String) (h : o ≠ some "") : jsOrNone o = o := by
  cases o with
  | none => rfl
  | some t =>
    have : (t == "") = false := by
      simpa using fun ht => h (by rw [ht])
    simp [jsOrNone, this]

theorem extractImportNames_alias_ne_empty (l : Option PNode) :
    ∀ e ∈ extractImportNames l, e.«alias» ≠ some "" := by
  cases l with
  | none => simp [extractImportNames]
  | some ln =>
    intro e he
    simp only [extractImportNames, List.mem_flatMap] at he
    obtain ⟨child, _, he⟩ := he
    by_cases h1 : child.type == "identifier"
    · simp only [h1, if_true, List.mem_singleton] at he
      subst he
      simp
    · by_cases h2 : child.type == "aliased_import"
      · simp only [h1, h2, Bool.false_eq_true, if_false, if_true, List.mem_singleton] at he
        subst he
        exact jsOrNone_ne_some_empty _
      · simp [h1, h2] at he

theorem mem_of_head_eq {α : Type} (l : List α) (a : α) (h : l[0]? = some a) : a ∈ l := by
  cases l with
  | nil => simp at h
  | cons b bs =>
    simp only [List.getElem?_cons_zero, Option.some.injEq] at h
    subst h
    exact List.mem_cons_self b bs

/-- C6: each entity of the direct `import` kind takes its `module` from
the name of the first entry of its `names` list and its top-level alias
from the alias of that first entry (absent entries degrade to the empty
string / absent) — collapsing multi-target statements to the first
target; each `from`-kind entity takes `module` from the text of the
dotted-name or relative-import child and its top-level alias is always
absent. -/
theorem extractImports_module_alias_fields (ast : PNode) :
    List.Forall₂ (fun imp node =>
        (node.type = "import_from_statement" →
          imp.type = "from" ∧ imp.«alias» = none
            ∧ imp.module = ((node.children.find? fun child =>
                child.type == "dotted_name" || child.type == "relative_import").map
                  PNode.text).getD "")
      ∧ (node.type ≠ "import_from_statement" →
          imp.type = "import"
            ∧ imp.module = ((imp.names[0]?).map ImportName.name).getD ""
            ∧ imp.«alias» = (imp.names[0]?).bind ImportName.«alias»))
      (extractImports ast)
      (findNodesByType ast "import_statement" ++ findNodesByType ast "import_from_statement") := by
  unfold extractImports
  rw [List.forall₂_map_left_iff]
  refine List.forall₂_same.mpr fun node _ => ⟨?_, ?_⟩
  · intro ht
    have hb : (node.type == "import_from_statement") = true := beq_iff_eq.mpr ht
    simp only [importOfNode, hb, if_true]
    exact ⟨trivial, trivial, jsOr_empty_default _⟩
  · intro hne
    have hb : (node.type == "import_from_statement") = false := by
      simpa using hne
    simp only [importOfNode, hb, Bool.false_eq_true, if_false]
    refine ⟨trivial, jsOr_empty_default _, ?_⟩
    show jsOrNone (((extractImportNames _)[0]?).bind ImportName.«alias») = _
    cases hh : (extractImportNames (node.children.find? fun child =>
        child.type == "import_list"))[0]? with
    | none => simp [jsOrNone]
    | some entry =>
      simp only [Option.some_bind]
      exact jsOrNone_of_ne_some_empty _
        (extractImportNames_alias_ne_empty _ entry (mem_of_head_eq _ _ hh))

mutual

theorem findNodesByTypeCtx_map_fst (ast : PNode) (nodeType : String) (anc : List PNode) :
    (findNodesByTypeCtx ast nodeType anc).map Prod.fst = findNodesByType ast nodeType := by
  cases ast with
  | mk t s e x cs =>
    simp only [findNodesByTypeCtx, findNodesByType, List.map_append]
    rw [findNodesByTypeCtxList_map_fst cs nodeType]
    by_cases h : t == nodeType <;> simp [h]

theorem findNodesByTypeCtxList_map_fst (l : List PNode) (nodeType : String) (anc : List PNode) :
    (findNodesByTypeCtxList l nodeType anc).map Prod.fst = findNodesByTypeList l nodeType := by
  cases l with
  | nil => rfl
  | cons c cs =>
    simp only [findNodesByTypeCtxList, findNodesByTypeList, List.map_append]
    rw [findNodesByTypeCtx_map_fst c nodeType, findNodesByTypeCtxList_map_fst cs nodeType]

end

/-- C5 counterexample: on the concrete one-class file `exClassTree`, the
methods list `extractClasses` produces is not the `extractFunctions`
result for the class's body subtree (with the body's real ancestor
chain): the two differ in the `body` field. -/
theorem extractClasses_methods_ne_extractFunctions :
    (extractClasses exClassTree []).map PythonClass.methods
      ≠ [extractFunctions exClassBody [exClassNode, exClassTree]] := by decide

/-- C5 (amended): the methods list `extractClasses` produces for a class
is `extractMethods` on the class's `"block"` body child, and that list
agrees with `extractFunctions` on the same body subtree in every field
except `body`: a method's `body` is the whole function-definition node's
text, while `extractFunctions` uses the text of the node's `"block"`
child (empty string when absent). -/
theorem extractClasses_methods_agree_except_body (ast b : PNode) (anc ancB : List PNode) :
    (extractClasses ast anc).map PythonClass.methods
      = (findNodesByTypeCtx ast "class_definition" anc).map
          (fun p => extractMethods (p.1.children.find? fun child => child.type == "block")
            (p.1 :: p.2))
  ∧ List.Forall₂ agreesExceptBody (extractMethods (some b) ancB) (extractFunctions b ancB)
  ∧ (extractMethods (some b) ancB).map PythonFunction.body
      = (findNodesByType b "function_definition").map PNode.text
  ∧ (extractFunctions b ancB).map PythonFunction.body
      = (findNodesByType b "function_definition").map
          (fun node => jsOr ((node.children.find? fun child =>
            child.type == "block").map PNode.text) "") := by
  refine ⟨?_, ?_, ?_, ?_⟩
  · unfold extractClasses
    rw [List.map_map]
    rfl
  · unfold extractMethods extractFunctions
    rw [List.forall₂_map_left_iff, List.forall₂_map_right_iff]
    exact List.forall₂_same.mpr fun p _ => ⟨rfl, rfl, rfl, rfl, rfl, rfl⟩
  · unfold extractMethods
    rw [List.map_map, ← findNodesByTypeCtx_map_fst b "function_definition" ancB,
      List.map_map]
    rfl
  · unfold extractFunctions
    rw [List.map_map, ← findNodesByTypeCtx_map_fst b "function_definition" ancB,
      List.map_map]
    rfl

theorem setParentAt_length (a : List ANode) (j p : Nat) :
    (setParentAt a j p).length = a.length := by
  unfold setParentAt
  cases h : a[j]? with
  | none => rfl
  | some n => exact List.length_set a j _

theorem setParents_length (a : List ANode) (idxs : List Nat) (p : Nat) :
    (setParents a idxs p).length = a.length := by
  induction idxs generalizing a with
  | nil => rfl
  | cons j js ih =>
    show (setParents (setParentAt a j p) js p).length = a.length
    rw [ih, setParentAt_length]

theorem setParentAt_getElem? (a : List ANode) (j p k : Nat) :
    (setParentAt a j p)[k]?
      = if k = j then (a[j]?).map (fun n => { n with parent := some p }) else a[k]? := by
  unfold setParentAt
  cases h : a[j]? with
  | none =>
    by_cases hk : k = j
    · subst hk; simp [h]
    · simp [hk]
  | some n =>
    have hj : j < a.length := by
      by_contra hlt
      rw [List.getElem?_eq_none (by omega)] at h
      exact Option.noConfusion h
    by_cases hk : k = j
    · subst hk
      rw [List.getElem?_set_self hj, h]
      simp
    · rw [List.getElem?_set_ne (by omega)]
      simp [hk]

theorem setParents_getElem? (idxs : List Nat) (a : List ANode) (p k : Nat) :
    (setParents a idxs p)[k]?
      = if k ∈ idxs then (a[k]?).map (fun n => { n with parent := some p }) else a[k]? := by
  induction idxs generalizing a with
  | nil => simp [setParents]
  | cons j js ih =>
    show (setParents (setParentAt a j p) js p)[k]? = _
    rw [ih, setParentAt_getElem?]
    by_cases hin : k ∈ js
    · by_cases hk : k = j
      · subst hk
        simp only [hin, if_true, List.mem_cons, true_or, if_true, eq_self_iff_true]
        cases a[k]? <;> rfl
      · simp [hin, hk, List.mem_cons]
    · by_cases hk : k = j
      · subst hk
        simp [hin, List.mem_cons]
      · simp [hin, hk, List.mem_cons]


theorem numNodes_pos (r : RawNode) : 1 ≤ r.numNodes := by
  cases r with
  | mk t s e x cs => simp [RawNode.numNodes]

mutual

theorem convertNodeIdx_ok (r : RawNode) (a₀ : List ANode) :
    (convertNodeIdx r a₀).1.length = a₀.length + r.numNodes
  ∧ (convertNodeIdx r a₀).2 + 1 = (convertNodeIdx r a₀).1.length
  ∧ (∀ j, j < a₀.length → (convertNodeIdx r a₀).1[j]? = a₀[j]?)
  ∧ RegionOK (convertNodeIdx r a₀).1 a₀.length [(convertNodeIdx r a₀).2] := by
  cases r with
  | mk t s e x cs =>
    obtain ⟨l1, o1, b1, R1⟩ := convertChildrenIdx_ok cs a₀
    set A := (convertChildrenIdx cs a₀).1 with hA
    set ks := (convertChildrenIdx cs a₀).2 with hks
    have hdef : convertNodeIdx (.mk t s e x cs) a₀
        = (setParents (A ++ [mkANode t s e x ks]) ks A.length, A.length) := rfl
    rw [hdef]
    dsimp only
    have hnum : RawNode.numNodes (.mk t s e x cs) = 1 + RawNode.numNodesList cs := rfl
    have f1 : (A ++ [mkANode t s e x ks]).length = A.length + 1 := by simp
    have f2 : (setParents (A ++ [mkANode t s e x ks]) ks A.length).length
        = A.length + 1 := by
      rw [setParents_length, f1]
    have f5 : ∀ j, j < A.length → (A ++ [mkANode t s e x ks])[j]? = A[j]? := by
      intro j hj
      rw [List.getElem?_append]
      rw [if_pos hj]
    have f6 : (A ++ [mkANode t s e x ks])[A.length]? = some (mkANode t s e x ks) :=
      List.getElem?_concat_length A _
    have f8 : A.length ∉ ks := fun hmem => by
      have := (b1 A.length hmem).2
      omega
    refine ⟨by rw [f2, l1, hnum]; omega, by rw [f2], ?_, ?_⟩
    · intro j hj
      have hjk : j ∉ ks := fun hmem => by
        have := (b1 j hmem).1
        omega
      rw [setParents_getElem?, if_neg hjk, f5 j (by omega), o1 j hj]
    · intro j hj1 hj2
      rw [f2] at hj2
      by_cases hji : j = A.length
      · subst hji
        refine ⟨mkANode t s e x ks, ?_, ?_, ?_, ?_⟩
        · rw [setParents_getElem?, if_neg f8]
          exact f6
        · intro c hc
          exact ⟨(b1 c hc).1, (b1 c hc).2⟩
        · intro _
          rfl
        · intro hmem
          exact absurd (List.mem_singleton.mpr rfl) hmem
      · have hjA : j < A.length := by omega
        obtain ⟨n, hn, hch, hroot, hnonroot⟩ := R1 j hj1 hjA
        by_cases hjk : j ∈ ks
        · refine ⟨{ n with parent := some A.length }, ?_, ?_, ?_, ?_⟩
          · rw [setParents_getElem?, if_pos hjk, f5 j hjA, hn]
            rfl
          · intro c hc
            exact ⟨(hch c hc).1, by have := (hch c hc).2; omega⟩
          · intro hmem
            rw [List.mem_singleton] at hmem
            exact absurd hmem hji
          · intro _
            refine ⟨A.length, mkANode t s e x ks, rfl, by omega, by rw [f2]; omega, ?_, hjk⟩
            rw [setParents_getElem?, if_neg f8]
            exact f6
        · refine ⟨n, ?_, ?_, ?_, ?_⟩
          · rw [setParents_getElem?, if_neg hjk, f5 j hjA, hn]
          · intro c hc
            exact ⟨(hch c hc).1, (hch c hc).2⟩
          · intro hmem
            rw [List.mem_singleton] at hmem
            exact absurd hmem hji
          · intro _
            obtain ⟨p, pn, hp1, hp2, hp3, hp4, hp5⟩ := hnonroot hjk
            by_cases hpk : p ∈ ks
            · refine ⟨p, { pn with parent := some A.length }, hp1, hp2,
                by rw [f2]; omega, ?_, hp5⟩
              rw [setParents_getElem?, if_pos hpk, f5 p hp3, hp4]
              rfl
            · refine ⟨p, pn, hp1, hp2, by rw [f2]; omega, ?_, hp5⟩
              rw [setParents_getElem?, if_neg hpk, f5 p hp3, hp4]

theorem convertChildrenIdx_ok (cs : List RawNode) (a₀ : List ANode) :
    (convertChildrenIdx cs a₀).1.length = a₀.length + RawNode.numNodesList cs
  ∧ (∀ j, j < a₀.length → (convertChildrenIdx cs a₀).1[j]? = a₀[j]?)
  ∧ (∀ i ∈ (convertChildrenIdx cs a₀).2,
      a₀.length ≤ i ∧ i < (convertChildrenIdx cs a₀).1.length)
  ∧ RegionOK (convertChildrenIdx cs a₀).1 a₀.length (convertChildrenIdx cs a₀).2 := by
  cases cs with
  | nil =>
    refine ⟨by simp [convertChildrenIdx, RawNode.numNodesList],
      fun j _ => rfl, by simp [convertChildrenIdx], ?_⟩
    intro j hj1 hj2
    simp only [convertChildrenIdx] at hj2
    omega
  | cons c cs =>
    obtain ⟨l1, e1, o1, R1⟩ := convertNodeIdx_ok c a₀
    obtain ⟨l2, o2, b2, R2⟩ := convertChildrenIdx_ok cs (convertNodeIdx c a₀).1
    have hdef : convertChildrenIdx (c :: cs) a₀
        = ((convertChildrenIdx cs (convertNodeIdx c a₀).1).1,
           (convertNodeIdx c a₀).2 :: (convertChildrenIdx cs (convertNodeIdx c a₀).1).2) := rfl
    rw [hdef]
    dsimp only
    have hi1 : a₀.length ≤ (convertNodeIdx c a₀).2 := by
      have := numNodes_pos c
      omega
    have hi1' : (convertNodeIdx c a₀).2 < (convertNodeIdx c a₀).1.length := by omega
    have hnum : RawNode.numNodesList (c :: cs) = c.numNodes + RawNode.numNodesList cs := rfl
    refine ⟨by rw [l2, l1, hnum]; omega, ?_, ?_, ?_⟩
    · intro j hj
      rw [o2 j (by omega), o1 j hj]
    · intro i hi
      rcases List.mem_cons.mp hi with hi | hi
      · subst hi
        exact ⟨hi1, by omega⟩
      · exact ⟨by have := (b2 i hi).1; omega, (b2 i hi).2⟩
    · intro j hj1 hj2
      by_cases hcase : j < (convertNodeIdx c a₀).1.length
      · obtain ⟨n, hn, hch, hroot, hnonroot⟩ := R1 j hj1 hcase
        refine ⟨n, by rw [o2 j hcase]; exact hn, hch, ?_, ?_⟩
        · intro hmem
          rcases List.mem_cons.mp hmem with hmem | hmem
          · exact hroot (by rw [hmem]; exact List.mem_singleton.mpr rfl)
          · have := (b2 j hmem).1
            omega
        · intro hmem
          have hmem1 : j ∉ ([(convertNodeIdx c a₀).2] : List Nat) := by
            intro hx
            exact hmem (List.mem_cons.mpr (Or.inl (List.mem_singleton.mp hx)))
          obtain ⟨p, pn, hp1, hp2, hp3, hp4, hp5⟩ := hnonroot hmem1
          exact ⟨p, pn, hp1, hp2, by omega, by rw [o2 p hp3]; exact hp4, hp5⟩
      · have hjlo : (convertNodeIdx c a₀).1.length ≤ j := by omega
        obtain ⟨n, hn, hch, hroot, hnonroot⟩ := R2 j hjlo hj2
        refine ⟨n, hn, ?_, ?_, ?_⟩
        · intro cc hcc
          exact ⟨by have := (hch cc hcc).1; omega, (hch cc hcc).2⟩
        · intro hmem
          rcases List.mem_cons.mp hmem with hmem | hmem
          · omega
          · exact hroot hmem
        · intro hmem
          have hmem2 : j ∉ (convertChildrenIdx cs (convertNodeIdx c a₀).1).2 := by
            intro hx
            exact hmem (List.mem_cons.mpr (Or.inr hx))
          exact hnonroot hmem2

end

/-- C2: in every arena built by the embedded `convertNode` construction,
the root's `parent` back-reference is absent; every non-root node's
`parent` points to a node whose `children` list contains it (and lies
strictly above it in allocation order); and no node is its own ancestor
along the `parent` relation. -/
theorem convertNodeIdx_parent_invariants (r : RawNode) :
    parentOf (convertNodeIdx r []).1 (convertNodeIdx r []).2 = none
  ∧ (∀ j, j < (convertNodeIdx r []).1.length → j ≠ (convertNodeIdx r []).2 →
      ∃ p pn, parentOf (convertNodeIdx r []).1 j = some p
        ∧ ((convertNodeIdx r []).1)[p]? = some pn ∧ j ∈ pn.children ∧ j < p)
  ∧ (∀ j, ¬ Relation.TransGen
      (fun u v => parentOf (convertNodeIdx r []).1 u = some v) j j) := by
  obtain ⟨l, e, o, R⟩ := convertNodeIdx_ok r []
  have hroot_lt : (convertNodeIdx r []).2 < (convertNodeIdx r []).1.length := by omega
  have hstep : ∀ u v, parentOf (convertNodeIdx r []).1 u = some v → u < v := by
    intro u v huv
    by_cases hu : u < (convertNodeIdx r []).1.length
    · obtain ⟨n, hn, _, hr, hnr⟩ := R u (by simp) hu
      have hpar : parentOf (convertNodeIdx r []).1 u = n.parent := by
        simp [parentOf, hn]
      by_cases hur : u = (convertNodeIdx r []).2
      · have : n.parent = none := hr (by rw [hur]; exact List.mem_singleton.mpr rfl)
        rw [hpar, this] at huv
        exact Option.noConfusion huv
      · obtain ⟨p, pn, hp1, hp2, _, _, _⟩ :=
          hnr (fun hm => hur (List.mem_singleton.mp hm))
        rw [hpar, hp1] at huv
        rw [← Option.some.injEq v p |>.mp huv.symm] at hp2
        omega
    · have : ((convertNodeIdx r []).1)[u]? = none := by
        rw [List.getElem?_eq_none]
        omega
      rw [parentOf, this] at huv
      exact Option.noConfusion huv
  refine ⟨?_, ?_, ?_⟩
  · obtain ⟨n, hn, _, hr, _⟩ := R (convertNodeIdx r []).2 (by simp) hroot_lt
    have : n.parent = none := hr (List.mem_singleton.mpr rfl)
    simp [parentOf, hn, this]
  · intro j hj hne
    obtain ⟨n, hn, _, _, hnr⟩ := R j (by simp) hj
    obtain ⟨p, pn, hp1, hp2, _, hp4, hp5⟩ := hnr (fun hm => hne (List.mem_singleton.mp hm))
    exact ⟨p, pn, by simp [parentOf, hn, hp1], hp4, hp5, hp2⟩
  · have hforall : ∀ u v : Nat, Relation.TransGen (fun a b : Nat => a < b) u v → u < v := by
      intro u v h
      induction h with
      | single h1 => exact h1
      | tail _ h2 ih => exact Nat.lt_trans ih h2
    intro j hTG
    have : j < j := hforall j j (Relation.TransGen.mono hstep hTG)
    omega

theorem convertNodeIdx_parent_bounds (r : RawNode) :
    ∀ k, k < (convertNodeIdx r []).1.length →
      parentOf (convertNodeIdx r []).1 k = none
      ∨ ∃ p, parentOf (convertNodeIdx r []).1 k = some p
          ∧ k < p ∧ p < (convertNodeIdx r []).1.length := by
  obtain ⟨l, e, o, R⟩ := convertNodeIdx_ok r []
  intro k hk
  obtain ⟨n, hn, _, hr, hnr⟩ := R k (by simp) hk
  have hpar : parentOf (convertNodeIdx r []).1 k = n.parent := by
    simp [parentOf, hn]
  by_cases hkr : k = (convertNodeIdx r []).2
  · left
    rw [hpar, hr (by rw [hkr]; exact List.mem_singleton.mpr rfl)]
  · right
    obtain ⟨p, pn, hp1, hp2, hp3, _, _⟩ := hnr (fun hm => hkr (List.mem_singleton.mp hm))
    exact ⟨p, by rw [hpar, hp1], hp2, hp3⟩

theorem decoLoop_total (a : List ANode)
    (hpar : ∀ k, k < a.length → parentOf a k = none
      ∨ ∃ p, parentOf a k = some p ∧ k < p ∧ p < a.length) :
    ∀ fuel k, k < a.length → a.length - k < fuel →
      ∃ ds, extractDecoratorsLoop a (some k) fuel = some ds := by
  intro fuel
  induction fuel with
  | zero =>
    intro k hk hf
    omega
  | succ fuel ih =>
    intro k hk hf
    cases hn : a[k]? with
    | none =>
      have := List.getElem?_eq_none_iff.mp hn
      omega
    | some n =>
      by_cases hd : n.type == "decorated_definition"
      · have hpn : parentOf a k = n.parent := by simp [parentOf, hn]
        rcases hpar k hk with hnone | ⟨p, hp, hkp, hplen⟩
        · have hparnone : n.parent = none := by rw [← hpn]; exact hnone
          cases fuel with
          | zero => omega
          | succ f =>
            have hres : extractDecoratorsLoop a (some k) (f + 1 + 1)
                = some ((n.children.filterMap fun c => (a[c]?).bind fun cn =>
                    if cn.type == "decorator" then some cn.text else none) ++ []) := by
              simp [extractDecoratorsLoop, hn, hd, hparnone]
            exact ⟨_, hres⟩
        · have hnp : n.parent = some p := by rw [← hpn]; exact hp
          obtain ⟨ds, hds⟩ := ih p hplen (by omega)
          have hres : extractDecoratorsLoop a (some k) (fuel + 1)
              = some ((n.children.filterMap fun c => (a[c]?).bind fun cn =>
                  if cn.type == "decorator" then some cn.text else none) ++ ds) := by
            simp [extractDecoratorsLoop, hn, hd, hnp, hds]
          exact ⟨_, hres⟩
      · exact ⟨[], by simp [extractDecoratorsLoop, hn, hd]⟩

/-- C10: for every node of an arena built by the embedded `convertNode`
construction, the parent-chain ascent loop of `extractDecorators`
terminates — fuel equal to the arena size (which bounds the length of any
parent chain, as `parent` strictly increases the allocation index) is
never exhausted. -/
theorem extractDecorators_ascent_terminates (r : RawNode) (j : Nat)
    (h : j < (convertNodeIdx r []).1.length) :
    ∃ ds, extractDecoratorsIdx (convertNodeIdx r []).1 j
      ((convertNodeIdx r []).1.length) = some ds := by
  have hpar := convertNodeIdx_parent_bounds r
  unfold extractDecoratorsIdx
  rcases hpar j h with hnone | ⟨p, hp, hjp, hplen⟩
  · rw [hnone]
    cases hlen : (convertNodeIdx r []).1.length with
    | zero => omega
    | succ m => exact ⟨[], rfl⟩
  · rw [hp]
    exact decoLoop_total _ hpar _ p hplen (by omega)

/-- Witness for C10 at the concrete decorated-definition tree
`exDecorated` and node index 0. -/
theorem extractDecorators_ascent_terminates_witness :
    0 < (convertNodeIdx exDecorated []).1.length
  ∧ ∃ ds, extractDecoratorsIdx (convertNodeIdx exDecorated []).1 0
      ((convertNodeIdx exDecorated []).1.length) = some ds :=
  ⟨by decide, extractDecorators_ascent_terminates exDecorated 0 (by decide)⟩
